import Mathlib

/-!
# Verification of Glyphify (`img2ascii.py`)

A shallow embedding of the image-to-ASCII pipeline of `src/img2ascii.py`
and proofs about it.  Python strings are modelled as `List Char`, Python
floats as real numbers, Python `x ** y` as `Real.rpow`, and Python
`int(x)` as truncation toward zero.  The external image collaborators
(decoding and Lanczos resampling) are abstracted: the resampled image is
a pixel-access function `ℕ → ℕ → ℕ × ℕ × ℕ`, mirroring `img.getpixel`.
-/

namespace Glyphify

/-- The escape character `\x1b` used by the ANSI sequences. -/
def ESC : Char := Char.ofNat 27

/-- `RESET = "\x1b[0m"` from the source. -/
def RESET : List Char := [ESC, '[', '0', 'm']

/-- `DEFAULT_RAMP = " .,:;i1tfLCG08@"` from the source. -/
def DEFAULT_RAMP : List Char := (" .,:;i1tfLCG08@").toList

/-- `ALT_RAMP = " .:-=+*#%@"` from the source. -/
def ALT_RAMP : List Char := (" .:-=+*#%@").toList

/-- Decimal digit character for `d % 10`. -/
def digitChar (d : ℕ) : Char := Char.ofNat (48 + d % 10)

/-- Decimal rendering of an 8-bit channel value, modelling the `{r}`
interpolation of the f-string in `ansi_fg`.  Pixel channels are 8-bit
(`img.convert("RGB")`), hence at most three digits. -/
def decimalRepr (n : ℕ) : List Char :=
  if n < 10 then [digitChar n]
  else if n < 100 then [digitChar (n / 10), digitChar n]
  else [digitChar (n / 100), digitChar (n / 10), digitChar n]

/-- The characters of `ansi_fg r g b` after the leading escape character. -/
def fgTail (r g b : ℕ) : List Char :=
  '[' :: '3' :: '8' :: ';' :: '2' :: ';' ::
    (decimalRepr r ++ ';' :: decimalRepr g ++ ';' :: decimalRepr b ++ ['m'])

/-- `ansi_fg(r, g, b) = f"\x1b[38;2;{r};{g};{b}m"` from the source. -/
def ansi_fg (r g b : ℕ) : List Char := ESC :: fgTail r g b

/-- `clamp(n, lo, hi)` from the source:
`return lo if n < lo else hi if n > hi else n`. -/
noncomputable def clamp (n lo hi : ℝ) : ℝ :=
  if n < lo then lo else if n > hi then hi else n

/-- `rgb_to_luma(r, g, b) = 0.2126*r + 0.7152*g + 0.0722*b` from the source. -/
noncomputable def rgb_to_luma (r g b : ℕ) : ℝ := 0.2126 * r + 0.7152 * g + 0.0722 * b

/-- `inv_255 = 1.0 / 255.0` from the source. -/
noncomputable def inv_255 : ℝ := 1.0 / 255.0

/-- Normalised luminance of a pixel: `lum = rgb_to_luma(r, g, b) * inv_255`. -/
noncomputable def lum0 (r g b : ℕ) : ℝ := rgb_to_luma r g b * inv_255

/-- The tone adjustments of `image_to_ascii` applied to a normalised
luminance, following the source statement by statement:
`lum = ((lum - 0.5) * contrast) + 0.5`, `lum = lum * brightness`,
`lum = clamp(lum, 0.0, 1.0)`, `lum = clamp(lum ** gamma, 0.0, 1.0)`. -/
noncomputable def toneOfLum (brightness contrast gamma : ℝ) (l : ℝ) : ℝ :=
  let l1 := ((l - 0.5) * contrast) + 0.5
  let l2 := l1 * brightness
  let l3 := clamp l2 0 1
  clamp (l3 ^ gamma) 0 1

/-- The value fed as base to the `** gamma` exponentiation in the source:
the luminance after contrast, brightness and the first clamp. -/
noncomputable def preGammaOfLum (brightness contrast : ℝ) (l : ℝ) : ℝ :=
  clamp ((((l - 0.5) * contrast) + 0.5) * brightness) 0 1

/-- Full per-pixel tone mapping of the source (lines 58-66). -/
noncomputable def toneLum (brightness contrast gamma : ℝ) (r g b : ℕ) : ℝ :=
  toneOfLum brightness contrast gamma (lum0 r g b)

/-- The five-step reference pipeline, written from the words of spec
section 4.3: luma divided by 255, contrast about the midpoint, brightness
as a multiplier, clamp to `[0,1]`, gamma, clamp again. -/
noncomputable def toneSpec (brightness contrast gamma : ℝ) (r g b : ℕ) : ℝ :=
  let lum0s := (0.2126 * (r : ℝ) + 0.7152 * (g : ℝ) + 0.0722 * (b : ℝ)) / 255
  let lum1 := (lum0s - 0.5) * contrast + 0.5
  let lum2 := lum1 * brightness
  let lum3 := clamp lum2 0 1
  clamp (lum3 ^ gamma) 0 1

/-- Python `int(x)` on a float: truncation toward zero. -/
noncomputable def realTrunc (x : ℝ) : ℤ := if 0 ≤ x then ⌊x⌋ else ⌈x⌉

/-- `height = max(1, int((orig_h / orig_w) * width * aspect))` (line 42). -/
noncomputable def targetHeight (origW origH width : ℕ) (aspect : ℝ) : ℕ :=
  max 1 (realTrunc ((origH : ℝ) / (origW : ℝ) * (width : ℝ) * aspect)).toNat

/-- The dimension formula as the spec words it (section 4.1), with
`round` in place of the `int` truncation of the source. -/
noncomputable def targetHeightSpec (origW origH width : ℕ) (aspect : ℝ) : ℕ :=
  max 1 (round ((origH : ℝ) / (origW : ℝ) * (width : ℝ) * aspect)).toNat

/-- `idx = int(lum * (ramp_len - 1))` (line 69); `ramp_len - 1` is Python
integer arithmetic, so it is `(ramp_len : ℤ) - 1` cast to a float. -/
noncomputable def glyphIndex (ramp_len : ℕ) (lum : ℝ) : ℤ :=
  realTrunc (lum * ((ramp_len : ℝ) - 1))

/-- Glyph index as a function of the input (normalised) luminance, with
the tone adjustments applied first (lines 58-69). -/
noncomputable def glyphIndexOfLum (ramp_len : ℕ) (brightness contrast gamma : ℝ)
    (l : ℝ) : ℤ :=
  glyphIndex ramp_len (toneOfLum brightness contrast gamma l)

/-- Python string indexing `s[i]`: in-range nonnegative indices read
directly, negative indices wrap once from the end, anything else raises
`IndexError` (modelled as `none`). -/
def pyStrGet (s : List Char) (i : ℤ) : Option Char :=
  if 0 ≤ i then s.get? i.toNat
  else if 0 ≤ (s.length : ℤ) + i then s.get? ((s.length : ℤ) + i).toNat
  else none

/-- One loop body of the renderer (lines 55-75): tone-map the pixel, index
the ramp, and emit `ansi_fg(r, g, b) + ch` when colour is on, else `ch`.
`none` models an `IndexError` from the ramp lookup. -/
noncomputable def renderPixel (ramp : List Char) (color : Bool)
    (brightness contrast gamma : ℝ) (r g b : ℕ) : Option (List Char) :=
  (pyStrGet ramp (glyphIndex ramp.length (toneLum brightness contrast gamma r g b))).map
    fun ch => if color then ansi_fg r g b ++ [ch] else [ch]

/-- Sequence a list of optional values, `none` if any element is `none`;
the standard embedding of a Python loop that can raise. -/
def seqOpt {α : Type} : List (Option α) → Option (List α)
  | [] => some []
  | o :: rest => o.bind fun a => (seqOpt rest).map fun l => a :: l

/-- One row of the renderer (lines 52-79): the cells for `x = 0..width-1`,
a `RESET` part appended when colour is on, joined to one line. -/
noncomputable def renderLine (pix : ℕ → ℕ → ℕ × ℕ × ℕ) (width : ℕ)
    (ramp : List Char) (color : Bool) (brightness contrast gamma : ℝ)
    (y : ℕ) : Option (List Char) :=
  (seqOpt ((List.range width).map fun x =>
      renderPixel ramp color brightness contrast gamma
        (pix x y).1 (pix x y).2.1 (pix x y).2.2)).map
    fun parts => (if color then parts ++ [RESET] else parts).flatten

/-- `image_to_ascii` (lines 26-81) with the external loader/resampler
abstracted: `pix` is the resampled RGB pixel grid (`img.getpixel` after
`img.resize((width, height), LANCZOS)`), `origW × origH` the decoded
source dimensions.  Rows are joined by `"\n".join(lines)`. -/
noncomputable def image_to_ascii (origW origH : ℕ) (pix : ℕ → ℕ → ℕ × ℕ × ℕ)
    (width : ℕ) (ramp : List Char) (color : Bool)
    (brightness contrast gamma aspect : ℝ) : Option (List Char) :=
  (seqOpt ((List.range (targetHeight origW origH width aspect)).map
      (renderLine pix width ramp color brightness contrast gamma))).map
    (List.intercalate ['\n'])

/-- The argparse default for `--ramp` (line 87). -/
def rampArgDefault : String := "alt"

/-- The ramp selection of `main` (lines 99-101):
`ramp = DEFAULT_RAMP if args.ramp == "default" else ALT_RAMP`, then
`if args.custom_ramp: ramp = args.custom_ramp` (truthiness: non-empty). -/
def chooseRamp (rampArg : String) (customRamp : List Char) : List Char :=
  let ramp := if rampArg = "default" then DEFAULT_RAMP else ALT_RAMP
  if customRamp.isEmpty then ramp else customRamp

/-- Number of occurrences of `pat` as a contiguous block of `l`. -/
def occCount (pat l : List Char) : ℕ :=
  (List.range (l.length + 1)).countP fun i =>
    decide ((l.drop i).take pat.length = pat)

/-! ## Basic facts about `clamp` and `realTrunc` -/

theorem clamp_nonneg (n : ℝ) : 0 ≤ clamp n 0 1 := by
  unfold clamp
  split_ifs with h1 h2
  · norm_num
  · norm_num
  · exact not_lt.mp h1

theorem clamp_le_one (n : ℝ) : clamp n 0 1 ≤ 1 := by
  unfold clamp; split_ifs <;> [norm_num; norm_num; linarith]

theorem clamp_mono {x y : ℝ} (h : x ≤ y) : clamp x 0 1 ≤ clamp y 0 1 := by
  unfold clamp; split_ifs <;> linarith

theorem realTrunc_of_nonneg {x : ℝ} (h : 0 ≤ x) : realTrunc x = ⌊x⌋ := if_pos h

theorem realTrunc_mono {x y : ℝ} (h : x ≤ y) : realTrunc x ≤ realTrunc y := by
  unfold realTrunc
  split_ifs with h1 h2 h2
  · exact Int.floor_le_floor h
  · linarith
  · refine le_trans (Int.ceil_le.mpr ?_) (Int.floor_nonneg.mpr h2)
    push_cast
    exact le_of_not_le h1
  · exact Int.ceil_le_ceil h

theorem toneOfLum_nonneg (brightness contrast gamma l : ℝ) :
    0 ≤ toneOfLum brightness contrast gamma l := clamp_nonneg _

theorem toneOfLum_le_one (brightness contrast gamma l : ℝ) :
    toneOfLum brightness contrast gamma l ≤ 1 := clamp_le_one _

/-! ## Bounds for the glyph index -/

theorem glyphIndex_eq_floor {N : ℕ} {lum : ℝ} (h0 : 0 ≤ lum) (hN : 1 ≤ N) :
    glyphIndex N lum = ⌊lum * ((N : ℝ) - 1)⌋ := by
  have hN' : (1 : ℝ) ≤ (N : ℝ) := by exact_mod_cast hN
  exact realTrunc_of_nonneg (mul_nonneg h0 (by linarith))

theorem glyphIndex_nonneg {N : ℕ} {lum : ℝ} (h0 : 0 ≤ lum) (hN : 1 ≤ N) :
    0 ≤ glyphIndex N lum := by
  rw [glyphIndex_eq_floor h0 hN]
  have hN' : (1 : ℝ) ≤ (N : ℝ) := by exact_mod_cast hN
  exact Int.floor_nonneg.mpr (mul_nonneg h0 (by linarith))

theorem glyphIndex_le {N : ℕ} {lum : ℝ} (h0 : 0 ≤ lum) (h1 : lum ≤ 1)
    (hN : 1 ≤ N) : glyphIndex N lum ≤ (N : ℤ) - 1 := by
  rw [glyphIndex_eq_floor h0 hN]
  have hN' : (1 : ℝ) ≤ (N : ℝ) := by exact_mod_cast hN
  have hle : lum * ((N : ℝ) - 1) ≤ (N : ℝ) - 1 := by nlinarith
  calc ⌊lum * ((N : ℝ) - 1)⌋ ≤ ⌊(N : ℝ) - 1⌋ := Int.floor_le_floor hle
    _ = (N : ℤ) - 1 := by
        rw [show ((N : ℝ) - 1) = (((N : ℤ) - 1 : ℤ) : ℝ) by push_cast; ring]
        exact Int.floor_intCast _

theorem pyStrGet_nonneg_lt {s : List Char} {i : ℤ} (h0 : 0 ≤ i)
    (hlt : i < (s.length : ℤ)) : pyStrGet s i = some (s.getD i.toNat ' ') := by
  have hlt' : i.toNat < s.length := by omega
  rw [pyStrGet, if_pos h0, List.get?_eq_get hlt', List.getD_eq_get?,
    List.get?_eq_get hlt']
  rfl

/-! ## C1: the target-height formula -/

/-- C1 counterexample: the spec formula uses `round`, but the code
truncates with `int`.  For a 2x1 source at width 3 and aspect 1.0 the
product is 1.5: the code yields height 1, the claimed formula yields 2. -/
theorem targetHeight_round_counterexample :
    targetHeight 2 1 3 1 = 1 ∧ targetHeightSpec 2 1 3 1 = 2 ∧
      targetHeight 2 1 3 1 ≠ targetHeightSpec 2 1 3 1 := by
  have h1 : targetHeight 2 1 3 1 = 1 := by
    unfold targetHeight realTrunc
    norm_num
  have h2 : targetHeightSpec 2 1 3 1 = 2 := by
    unfold targetHeightSpec
    norm_num [round_eq]
    decide
  exact ⟨h1, h2, by rw [h1, h2]; norm_num⟩

/-- C1 (amended): for positive source dimensions, positive requested
width and positive aspect, the computed character height equals
`max(1, floor((sourceHeight / sourceWidth) * width * aspect))` — the
source truncates with `int`, which on these nonnegative products is the
floor, not `round` — and the height is at least 1 for any input. -/
theorem targetHeight_floor_formula (origW origH width : ℕ) (aspect : ℝ)
    (hW : 0 < origW) (hH : 0 < origH) (hwidth : 0 < width) (ha : 0 < aspect) :
    targetHeight origW origH width aspect =
      max 1 (⌊(origH : ℝ) / (origW : ℝ) * (width : ℝ) * aspect⌋).toNat ∧
    1 ≤ targetHeight origW origH width aspect := by
  constructor
  · unfold targetHeight
    rw [realTrunc_of_nonneg]
    positivity
  · exact le_max_left 1 _

/-- Witness for C1 at the instance given in the spec: a 100x50 source, width 80,
aspect 0.55 gives height 22. -/
theorem targetHeight_floor_formula_witness :
    (targetHeight 100 50 80 0.55 =
        max 1 (⌊(50 : ℝ) / (100 : ℝ) * (80 : ℝ) * 0.55⌋).toNat ∧
      1 ≤ targetHeight 100 50 80 0.55) ∧
    targetHeight 100 50 80 0.55 = 22 := by
  refine ⟨targetHeight_floor_formula 100 50 80 0.55 (by norm_num)
    (by norm_num) (by norm_num) (by norm_num), ?_⟩
  unfold targetHeight realTrunc
  norm_num
  decide

/-! ## C2: order of the tone-mapping pipeline -/

/-- C2: the per-pixel tone mapping of the source equals the five-step
reference pipeline of the spec, in that exact order — luma normalised by
255, contrast about the midpoint, then brightness, clamp to `[0,1]`,
gamma, and a final clamp. -/
theorem tone_pipeline_matches_spec (brightness contrast gamma : ℝ) (r g b : ℕ) :
    toneLum brightness contrast gamma r g b =
      toneSpec brightness contrast gamma r g b := by
  have h : rgb_to_luma r g b * inv_255 =
      (0.2126 * (r : ℝ) + 0.7152 * (g : ℝ) + 0.0722 * (b : ℝ)) / 255 := by
    unfold rgb_to_luma inv_255
    ring
  simp only [toneLum, toneOfLum, toneSpec, lum0]
  rw [h]

/-! ## C3: the glyph index is always in bounds -/

/-- C3: for final luminance in `[0,1]` and ramp length `N ≥ 1`, the
computed glyph index is `⌊lum * (N - 1)⌋`, lies in `[0, N-1]` (also at
`lum = 1`), and the subsequent ramp indexing therefore succeeds. -/
theorem glyph_index_in_bounds (lum : ℝ) (N : ℕ) (h0 : 0 ≤ lum) (h1 : lum ≤ 1)
    (hN : 1 ≤ N) :
    glyphIndex N lum = ⌊lum * ((N : ℝ) - 1)⌋ ∧
    0 ≤ glyphIndex N lum ∧ glyphIndex N lum ≤ (N : ℤ) - 1 ∧
    ∀ ramp : List Char, ramp.length = N →
      ∃ ch, pyStrGet ramp (glyphIndex N lum) = some ch := by
  refine ⟨glyphIndex_eq_floor h0 hN, glyphIndex_nonneg h0 hN,
    glyphIndex_le h0 h1 hN, ?_⟩
  intro ramp hlen
  refine ⟨_, pyStrGet_nonneg_lt (glyphIndex_nonneg h0 hN) ?_⟩
  have := glyphIndex_le h0 h1 hN
  omega

/-- Witness for C3 at the edge case `lum = 1` with the 10-character alt
ramp: the index evaluates to 9 = N - 1 and the lookup succeeds. -/
theorem glyph_index_in_bounds_witness :
    0 ≤ glyphIndex 10 1 ∧ glyphIndex 10 1 ≤ (10 : ℤ) - 1 ∧
    glyphIndex 10 1 = 9 ∧ ∃ ch, pyStrGet ALT_RAMP (glyphIndex 10 1) = some ch := by
  obtain ⟨hf, h0, h1, hr⟩ :=
    glyph_index_in_bounds 1 10 (by norm_num) (by norm_num) (by norm_num)
  refine ⟨h0, h1, ?_, hr ALT_RAMP (by decide)⟩
  rw [hf]
  norm_num

/-! ## C5: the base of the gamma exponentiation is clamped first -/

/-- C5: for every pixel and all parameter values (negative ones
included), the base handed to the `** gamma` exponentiation is the
already-clamped luminance, which lies in `[0,1]`; it is never negative,
so the negative-base domain-error branch is unreachable. -/
theorem gamma_base_clamped (brightness contrast gamma : ℝ) (r g b : ℕ) :
    toneLum brightness contrast gamma r g b =
      clamp ((preGammaOfLum brightness contrast (lum0 r g b)) ^ gamma) 0 1 ∧
    0 ≤ preGammaOfLum brightness contrast (lum0 r g b) ∧
    preGammaOfLum brightness contrast (lum0 r g b) ≤ 1 :=
  ⟨rfl, clamp_nonneg _, clamp_le_one _⟩

/-! ## C4: monotonicity of the glyph index -/

/-- C4 counterexample: with the fixed parameters brightness = 1,
contrast = -1, gamma = 1 and a 10-character ramp, input luminance 0 maps
to index 9 while the larger input luminance 1 maps to index 0, so the
index is not monotone for arbitrary fixed parameters. -/
theorem monotone_index_counterexample :
    glyphIndexOfLum 10 1 (-1) 1 0 = 9 ∧ glyphIndexOfLum 10 1 (-1) 1 1 = 0 ∧
    ¬ (glyphIndexOfLum 10 1 (-1) 1 0 ≤ glyphIndexOfLum 10 1 (-1) 1 1) := by
  have h0 : toneOfLum 1 (-1) 1 (0 : ℝ) = 1 := by
    simp only [toneOfLum, clamp]
    norm_num [Real.rpow_one]
  have h1 : toneOfLum 1 (-1) 1 (1 : ℝ) = 0 := by
    simp only [toneOfLum, clamp]
    norm_num [Real.rpow_one]
  have g0 : glyphIndexOfLum 10 1 (-1) 1 0 = 9 := by
    unfold glyphIndexOfLum glyphIndex
    rw [h0]
    unfold realTrunc
    norm_num
  have g1 : glyphIndexOfLum 10 1 (-1) 1 1 = 0 := by
    unfold glyphIndexOfLum glyphIndex
    rw [h1]
    unfold realTrunc
    norm_num
  refine ⟨g0, g1, ?_⟩
  rw [g0, g1]
  norm_num

/-- C4 (amended): the glyph index is monotone in the input luminance for
a fixed nonempty ramp provided the fixed brightness, contrast and gamma
are all nonnegative (the counterexample shows a negative parameter
reverses the order). -/
theorem glyph_index_monotone (N : ℕ) (brightness contrast gamma l₁ l₂ : ℝ)
    (hN : 1 ≤ N) (hb : 0 ≤ brightness) (hc : 0 ≤ contrast) (hg : 0 ≤ gamma)
    (hl : l₁ ≤ l₂) :
    glyphIndexOfLum N brightness contrast gamma l₁ ≤
      glyphIndexOfLum N brightness contrast gamma l₂ := by
  have htone : toneOfLum brightness contrast gamma l₁ ≤
      toneOfLum brightness contrast gamma l₂ := by
    simp only [toneOfLum]
    apply clamp_mono
    refine Real.rpow_le_rpow (clamp_nonneg _) ?_ hg
    apply clamp_mono
    have h1 : ((l₁ - 0.5) * contrast) + 0.5 ≤ ((l₂ - 0.5) * contrast) + 0.5 := by
      nlinarith
    exact mul_le_mul_of_nonneg_right h1 hb
  unfold glyphIndexOfLum glyphIndex
  apply realTrunc_mono
  apply mul_le_mul_of_nonneg_right htone
  have hN' : (1 : ℝ) ≤ (N : ℝ) := by exact_mod_cast hN
  linarith

/-- Witness for the amended C4 at concrete values. -/
theorem glyph_index_monotone_witness :
    glyphIndexOfLum 10 1 1 1 0 ≤ glyphIndexOfLum 10 1 1 1 1 :=
  glyph_index_monotone 10 1 1 1 0 1 (by norm_num) (by norm_num) (by norm_num)
    (by norm_num) (by norm_num)

/-! ## C8: custom ramp overrides the preset -/

/-- C8: a non-empty `--custom-ramp` string is used exclusively, whatever
preset `--ramp` selects; with an empty custom ramp the preset is used,
`"default"` giving `" .,:;i1tfLCG08@"` and anything else (the argparse
default choice is `"alt"`) giving `" .:-=+*#%@"`. -/
theorem custom_ramp_overrides (rampArg : String) (custom : List Char)
    (h : custom ≠ []) :
    chooseRamp rampArg custom = custom ∧
    chooseRamp rampArg [] =
      (if rampArg = "default" then DEFAULT_RAMP else ALT_RAMP) ∧
    chooseRamp rampArgDefault [] = ALT_RAMP ∧
    DEFAULT_RAMP = (" .,:;i1tfLCG08@").toList ∧
    ALT_RAMP = (" .:-=+*#%@").toList := by
  refine ⟨?_, ?_, by decide, rfl, rfl⟩
  · unfold chooseRamp
    simp [h]
  · unfold chooseRamp
    simp

/-- Witness for C8: a one-character custom ramp overrides the default
preset. -/
theorem custom_ramp_overrides_witness :
    chooseRamp "default" ['#'] = ['#'] :=
  (custom_ramp_overrides "default" ['#'] (by decide)).1

/-! ## C9: a pure black pixel with default parameters -/

/-- C9: for the pixel (0,0,0) under the default parameters
brightness = 1.05, contrast = 1.25, gamma = 0.85, the luminance entering
the gamma step is clamped to 0, the final luminance is exactly 0, the
glyph index is 0, and the pixel maps to the first ramp character. -/
theorem black_pixel_maps_to_first_char (ramp : List Char)
    (h : 1 ≤ ramp.length) :
    toneLum 1.05 1.25 0.85 0 0 0 = 0 ∧
    preGammaOfLum 1.05 1.25 (lum0 0 0 0) = 0 ∧
    glyphIndex ramp.length (toneLum 1.05 1.25 0.85 0 0 0) = 0 ∧
    pyStrGet ramp (glyphIndex ramp.length (toneLum 1.05 1.25 0.85 0 0 0)) =
      some (ramp.getD 0 ' ') := by
  have hl : lum0 0 0 0 = 0 := by
    norm_num [lum0, rgb_to_luma, inv_255]
  have hpre : preGammaOfLum 1.05 1.25 (lum0 0 0 0) = 0 := by
    rw [hl]
    unfold preGammaOfLum clamp
    norm_num
  have htone : toneLum 1.05 1.25 0.85 0 0 0 = 0 := by
    have hsplit : toneLum 1.05 1.25 0.85 0 0 0 =
        clamp ((preGammaOfLum 1.05 1.25 (lum0 0 0 0)) ^ (0.85 : ℝ)) 0 1 := rfl
    rw [hsplit, hpre, Real.zero_rpow (by norm_num)]
    unfold clamp
    norm_num
  have hidx : glyphIndex ramp.length (toneLum 1.05 1.25 0.85 0 0 0) = 0 := by
    rw [htone]
    unfold glyphIndex realTrunc
    norm_num
  refine ⟨htone, hpre, hidx, ?_⟩
  rw [hidx]
  have := pyStrGet_nonneg_lt (s := ramp) (i := 0) le_rfl (by exact_mod_cast h)
  simpa using this

/-- Witness for C9 with the alt preset ramp: black maps to its first
character, the space. -/
theorem black_pixel_maps_to_first_char_witness :
    1 ≤ ALT_RAMP.length ∧
    pyStrGet ALT_RAMP
        (glyphIndex ALT_RAMP.length (toneLum 1.05 1.25 0.85 0 0 0)) =
      some (ALT_RAMP.getD 0 ' ') :=
  ⟨by decide, (black_pixel_maps_to_first_char ALT_RAMP (by decide)).2.2.2⟩

/-! ## C10: ramp of length one -/

/-- C10: with a one-character ramp the quantizer computes
`int(lum * 0) = 0` for every pixel and every parameter choice, the ramp
lookup succeeds with the sole character, and the per-pixel renderer
returns normally. -/
theorem singleton_ramp_safe (c : Char) (color : Bool)
    (brightness contrast gamma : ℝ) (r g b : ℕ) :
    glyphIndex ([c].length) (toneLum brightness contrast gamma r g b) = 0 ∧
    pyStrGet [c]
        (glyphIndex ([c].length) (toneLum brightness contrast gamma r g b)) =
      some c ∧
    renderPixel [c] color brightness contrast gamma r g b =
      some (if color then ansi_fg r g b ++ [c] else [c]) := by
  have hidx : glyphIndex ([c].length)
      (toneLum brightness contrast gamma r g b) = 0 := by
    unfold glyphIndex realTrunc
    norm_num
  have hget : pyStrGet [c] 0 = some c := rfl
  refine ⟨hidx, by rw [hidx]; exact hget, ?_⟩
  unfold renderPixel
  rw [hidx, hget]
  rfl

/-! ## Total description of the renderer output

When the ramp is nonempty the renderer cannot fail; the following total
functions describe its output and are proved equal to it. -/

/-- The ramp character actually selected for a pixel (total form). -/
noncomputable def glyphTot (ramp : List Char) (brightness contrast gamma : ℝ)
    (r g b : ℕ) : Char :=
  ramp.getD (glyphIndex ramp.length (toneLum brightness contrast gamma r g b)).toNat ' '

/-- The string appended for one pixel (total form). -/
noncomputable def cellTot (ramp : List Char) (color : Bool)
    (brightness contrast gamma : ℝ) (pix : ℕ → ℕ → ℕ × ℕ × ℕ)
    (y x : ℕ) : List Char :=
  if color then
    ansi_fg (pix x y).1 (pix x y).2.1 (pix x y).2.2 ++
      [glyphTot ramp brightness contrast gamma
        (pix x y).1 (pix x y).2.1 (pix x y).2.2]
  else
    [glyphTot ramp brightness contrast gamma
      (pix x y).1 (pix x y).2.1 (pix x y).2.2]

/-- One output line (total form). -/
noncomputable def lineTot (pix : ℕ → ℕ → ℕ × ℕ × ℕ) (width : ℕ)
    (ramp : List Char) (color : Bool) (brightness contrast gamma : ℝ)
    (y : ℕ) : List Char :=
  (if color then
      ((List.range width).map (cellTot ramp color brightness contrast gamma pix y)) ++ [RESET]
    else
      (List.range width).map (cellTot ramp color brightness contrast gamma pix y)).flatten

theorem toneLum_nonneg (brightness contrast gamma : ℝ) (r g b : ℕ) :
    0 ≤ toneLum brightness contrast gamma r g b := clamp_nonneg _

theorem toneLum_le_one (brightness contrast gamma : ℝ) (r g b : ℕ) :
    toneLum brightness contrast gamma r g b ≤ 1 := clamp_le_one _

theorem pyStrGet_glyph {ramp : List Char} (h : 1 ≤ ramp.length)
    (brightness contrast gamma : ℝ) (r g b : ℕ) :
    pyStrGet ramp (glyphIndex ramp.length (toneLum brightness contrast gamma r g b)) =
      some (glyphTot ramp brightness contrast gamma r g b) := by
  have h0 := toneLum_nonneg brightness contrast gamma r g b
  have h1 := toneLum_le_one brightness contrast gamma r g b
  have hle := glyphIndex_le (N := ramp.length) h0 h1 h
  exact pyStrGet_nonneg_lt (glyphIndex_nonneg h0 h) (by omega)

theorem renderPixel_eq {ramp : List Char} (h : 1 ≤ ramp.length) (color : Bool)
    (brightness contrast gamma : ℝ) (r g b : ℕ) :
    renderPixel ramp color brightness contrast gamma r g b =
      some (if color then
          ansi_fg r g b ++ [glyphTot ramp brightness contrast gamma r g b]
        else [glyphTot ramp brightness contrast gamma r g b]) := by
  unfold renderPixel
  rw [pyStrGet_glyph h]
  rfl

theorem seqOpt_map_eq {α β : Type} (f : α → Option β) (g : α → β)
    (l : List α) (h : ∀ a ∈ l, f a = some (g a)) :
    seqOpt (l.map f) = some (l.map g) := by
  induction l with
  | nil => rfl
  | cons a l ih =>
    rw [List.map_cons, seqOpt, h a (List.mem_cons_self a l),
      ih (fun x hx => h x (List.mem_cons_of_mem a hx))]
    rfl

theorem renderLine_eq {ramp : List Char} (h : 1 ≤ ramp.length)
    (pix : ℕ → ℕ → ℕ × ℕ × ℕ) (width : ℕ) (color : Bool)
    (brightness contrast gamma : ℝ) (y : ℕ) :
    renderLine pix width ramp color brightness contrast gamma y =
      some (lineTot pix width ramp color brightness contrast gamma y) := by
  unfold renderLine
  rw [seqOpt_map_eq _ (cellTot ramp color brightness contrast gamma pix y) _
    (fun x _ => by rw [renderPixel_eq h]; rfl)]
  rfl

theorem image_to_ascii_eq {ramp : List Char} (h : 1 ≤ ramp.length)
    (origW origH : ℕ) (pix : ℕ → ℕ → ℕ × ℕ × ℕ) (width : ℕ) (color : Bool)
    (brightness contrast gamma aspect : ℝ) :
    image_to_ascii origW origH pix width ramp color brightness contrast gamma aspect =
      some (List.intercalate ['\n']
        ((List.range (targetHeight origW origH width aspect)).map
          (lineTot pix width ramp color brightness contrast gamma))) := by
  unfold image_to_ascii
  rw [seqOpt_map_eq _ (lineTot pix width ramp color brightness contrast gamma) _
    (fun y _ => renderLine_eq h pix width color brightness contrast gamma y)]
  rfl

theorem getD_map_range {β : Type} (f : ℕ → β) (d : β) {n m : ℕ} (h : m < n) :
    ((List.range n).map f).getD m d = f m := by
  rw [List.getD_eq_get?, List.get?_map, List.get?_range h]
  rfl

/-! ## C6: shape of the rendered output -/

/-- C6: with a nonempty ramp the renderer succeeds and produces exactly
`height` lines joined by a single line-break character, assembled in
top-to-bottom row order; line `y` is the concatenation of exactly `width`
cells, cell `x` holding the glyph for pixel `(x, y)` preceded by its
escape sequence when colour is enabled, with the reset sequence appended
at line end in colour mode. -/
theorem rendered_output_structure (origW origH : ℕ)
    (pix : ℕ → ℕ → ℕ × ℕ × ℕ) (width : ℕ) (ramp : List Char) (color : Bool)
    (brightness contrast gamma aspect : ℝ) (hramp : 1 ≤ ramp.length) :
    ∃ lines : List (List Char),
      image_to_ascii origW origH pix width ramp color brightness contrast gamma aspect =
        some (List.intercalate ['\n'] lines) ∧
      lines.length = targetHeight origW origH width aspect ∧
      ∀ y, y < targetHeight origW origH width aspect →
        ∃ cells : List (List Char), cells.length = width ∧
          lines.getD y [] = (if color then cells ++ [RESET] else cells).flatten ∧
          ∀ x, x < width →
            ∃ ch, pyStrGet ramp (glyphIndex ramp.length
                (toneLum brightness contrast gamma
                  (pix x y).1 (pix x y).2.1 (pix x y).2.2)) = some ch ∧
              cells.getD x [] =
                (if color then
                  ansi_fg (pix x y).1 (pix x y).2.1 (pix x y).2.2 ++ [ch]
                else [ch]) := by
  refine ⟨(List.range (targetHeight origW origH width aspect)).map
      (lineTot pix width ramp color brightness contrast gamma),
    image_to_ascii_eq hramp origW origH pix width color brightness contrast gamma aspect,
    by simp, ?_⟩
  intro y hy
  refine ⟨(List.range width).map (cellTot ramp color brightness contrast gamma pix y),
    by simp, ?_, ?_⟩
  · rw [getD_map_range _ _ hy]
    rfl
  · intro x hx
    refine ⟨glyphTot ramp brightness contrast gamma
        (pix x y).1 (pix x y).2.1 (pix x y).2.2,
      pyStrGet_glyph hramp brightness contrast gamma _ _ _, ?_⟩
    rw [getD_map_range _ _ hx]
    rfl

/-- Witness for C6: a concrete 1x1 black image rendered in colour with
the alt ramp succeeds and has the stated structure. -/
theorem rendered_output_structure_witness :
    1 ≤ ALT_RAMP.length ∧
    ∃ lines : List (List Char),
      image_to_ascii 1 1 (fun _ _ => (0, 0, 0)) 1 ALT_RAMP true
          1.05 1.25 0.85 0.55 = some (List.intercalate ['\n'] lines) ∧
      lines.length = targetHeight 1 1 1 0.55 := by
  obtain ⟨lines, h1, h2, _⟩ := rendered_output_structure 1 1 (fun _ _ => (0, 0, 0))
    1 ALT_RAMP true 1.05 1.25 0.85 0.55 (by decide)
  exact ⟨by decide, lines, h1, h2⟩

/-! ## Occurrences of the reset sequence in a coloured line -/

theorem digitChar_ne_esc (d : ℕ) : digitChar d ≠ ESC := by
  unfold digitChar ESC
  have h : d % 10 < 10 := Nat.mod_lt _ (by norm_num)
  set m := d % 10 with hm
  interval_cases m <;> decide

theorem decimalRepr_ne_esc (n : ℕ) : ∀ c ∈ decimalRepr n, c ≠ ESC := by
  intro c hc
  unfold decimalRepr at hc
  split_ifs at hc
  · rw [List.mem_singleton] at hc
    exact hc ▸ digitChar_ne_esc _
  · rcases List.mem_cons.mp hc with rfl | hc'
    · exact digitChar_ne_esc _
    · rw [List.mem_singleton] at hc'
      exact hc' ▸ digitChar_ne_esc _
  · rcases List.mem_cons.mp hc with rfl | hc'
    · exact digitChar_ne_esc _
    · rcases List.mem_cons.mp hc' with rfl | hc''
      · exact digitChar_ne_esc _
      · rw [List.mem_singleton] at hc''
        exact hc'' ▸ digitChar_ne_esc _

theorem mem_fgTail_ne_esc (r g b : ℕ) : ∀ c ∈ fgTail r g b, c ≠ ESC := by
  intro c hc
  unfold fgTail at hc
  simp only [List.mem_cons, List.mem_append, List.mem_singleton,
    List.mem_nil_iff, or_false] at hc
  rcases hc with rfl | rfl | rfl | rfl | rfl | rfl | hc
  · decide
  · decide
  · decide
  · decide
  · decide
  · decide
  · rcases hc with ((hc | rfl | hc) | rfl | hc) | rfl
    · exact decimalRepr_ne_esc r c hc
    · decide
    · exact decimalRepr_ne_esc g c hc
    · decide
    · exact decimalRepr_ne_esc b c hc
    · decide

/-- If no occurrence of `pat` starts inside `a`, the occurrences of
`a ++ b` are those of `b`. -/
theorem occCount_append_left (pat a b : List Char)
    (h : ∀ i, i < a.length → ((a ++ b).drop i).take pat.length ≠ pat) :
    occCount pat (a ++ b) = occCount pat b := by
  unfold occCount
  rw [List.length_append,
    show a.length + b.length + 1 = a.length + (b.length + 1) by omega,
    List.range_add, List.countP_append, List.countP_map]
  have h0 : (List.range a.length).countP
      (fun i => decide (((a ++ b).drop i).take pat.length = pat)) = 0 := by
    rw [List.countP_eq_zero]
    intro i hi
    simp only [List.mem_range] at hi
    simp only [decide_eq_true_eq]
    exact h i hi
  rw [h0, Nat.zero_add]
  apply List.countP_congr
  intro i _
  have hdrop : (a ++ b).drop (a.length + i) = b.drop i := by
    rw [← List.drop_drop, List.drop_left]
  simp only [Function.comp, hdrop]

/-- The reset sequence occurs in itself exactly once. -/
theorem occCount_reset_self : occCount RESET RESET = 1 := by decide

/-- No occurrence of `RESET` starts inside an escape-plus-glyph cell when
the following text starts with the escape character. -/
theorem fgcell_no_occ (r g b : ℕ) (ch : Char) (t : List Char) :
    ∀ i, i < (ansi_fg r g b ++ [ch]).length →
      (((ansi_fg r g b ++ [ch]) ++ (ESC :: t)).drop i).take RESET.length ≠
        RESET := by
  intro i hi
  have hshape : (ansi_fg r g b ++ [ch]) ++ (ESC :: t) =
      ESC :: (fgTail r g b ++ ch :: ESC :: t) := by
    simp [ansi_fg, List.cons_append, List.append_assoc]
  have hlen : (ansi_fg r g b ++ [ch]).length = (fgTail r g b).length + 2 := by
    simp [ansi_fg]
  rw [hshape]
  cases i with
  | zero =>
    intro hEq
    rw [List.drop_zero] at hEq
    unfold fgTail at hEq
    rw [show RESET.length = 4 from rfl] at hEq
    simp only [List.cons_append, List.take_succ_cons, List.take_zero] at hEq
    have h3 : '3' = '0' := by
      have h2 := congrArg (fun l => l.getD 2 ' ') hEq
      simp only [RESET, List.getD_cons_succ, List.getD_cons_zero] at h2
      exact h2
    exact absurd h3 (by decide)
  | succ j =>
    rw [List.drop_succ_cons]
    have hj : j ≤ (fgTail r g b).length := by omega
    by_cases hjlt : j < (fgTail r g b).length
    · have hd : (fgTail r g b).drop j ≠ [] := by
        rw [Ne, List.drop_eq_nil_iff]
        omega
      obtain ⟨hd0, tl, hdec⟩ := List.exists_cons_of_ne_nil hd
      have hmem : hd0 ∈ fgTail r g b :=
        List.drop_subset j _ (hdec ▸ List.mem_cons_self hd0 tl)
      rw [List.drop_append_eq_append_drop, hdec,
        Nat.sub_eq_zero_of_le (le_of_lt hjlt), List.drop_zero]
      intro hEq
      rw [List.cons_append, show RESET.length = 4 from rfl,
        List.take_succ_cons] at hEq
      have hhd : hd0 = ESC := by
        have h0 := congrArg (fun l => l.getD 0 ' ') hEq
        simp only [RESET, List.getD_cons_zero] at h0
        exact h0
      exact mem_fgTail_ne_esc r g b hd0 hmem hhd
    · have hj' : j = (fgTail r g b).length := by omega
      rw [hj', List.drop_left]
      intro hEq
      rw [show RESET.length = 4 from rfl, List.take_succ_cons,
        List.take_succ_cons] at hEq
      have hbr : ESC = '[' := by
        have := congrArg (fun l => l.getD 1 ' ') hEq
        simpa [RESET] using this
      exact absurd hbr (by decide)

/-- A line made of escape-plus-glyph cells followed by `RESET` contains
exactly one occurrence of `RESET`. -/
theorem occCount_cells (cells : List (List Char))
    (h : ∀ cl ∈ cells, ∃ r g b ch, cl = ansi_fg r g b ++ [ch]) :
    occCount RESET (cells.flatten ++ RESET) = 1 := by
  induction cells with
  | nil =>
    simp only [List.flatten_nil, List.nil_append]
    exact occCount_reset_self
  | cons cl cs ih =>
    obtain ⟨r, g, b, ch, rfl⟩ := h cl (List.mem_cons_self _ _)
    have hrest : ∃ t, cs.flatten ++ RESET = ESC :: t := by
      cases hcs : cs with
      | nil => exact ⟨['[', '0', 'm'], by simp [RESET, ESC]⟩
      | cons cl' cs' =>
        obtain ⟨r', g', b', ch', hcl'⟩ := h cl'
          (hcs ▸ List.mem_cons_of_mem _ (List.mem_cons_self cl' cs'))
        refine ⟨(fgTail r' g' b' ++ [ch']) ++ (cs'.flatten ++ RESET), ?_⟩
        simp [hcl', ansi_fg, List.append_assoc]
    obtain ⟨t, ht⟩ := hrest
    have heq : ((ansi_fg r g b ++ [ch]) :: cs).flatten ++ RESET =
        (ansi_fg r g b ++ [ch]) ++ (ESC :: t) := by
      rw [List.flatten_cons, List.append_assoc, ht]
    rw [heq, occCount_append_left _ _ _ (fgcell_no_occ r g b ch t), ← ht]
    exact ih (fun cl hcl => h cl (List.mem_cons_of_mem _ hcl))

/-- Every cell of a flattened mapped range appears as a contiguous block. -/
theorem flatten_map_range_split (f : ℕ → List Char) (width x : ℕ)
    (hx : x < width) :
    ∃ s t, ((List.range width).map f).flatten = s ++ f x ++ t := by
  induction width with
  | zero => omega
  | succ w ih =>
    rw [List.range_succ, List.map_append, List.flatten_append]
    by_cases hxw : x < w
    · obtain ⟨s, t, hst⟩ := ih hxw
      exact ⟨s, t ++ ([w].map f).flatten, by rw [hst]; simp [List.append_assoc]⟩
    · have hxeq : x = w := by omega
      subst hxeq
      exact ⟨((List.range x).map f).flatten, [], by simp⟩

/-! ## C7: colour output structure -/

/-- C7: with colour enabled and a nonempty ramp, every rendered line
contains, for each pixel of the row in order, the true-colour foreground
escape built from the original RGB values of that pixel (not the tone-mapped
ones) immediately before the glyph character of the pixel; the line ends with the shared reset sequence,
which occurs in the line exactly once; and for the pixel (255,0,0) the
escape encodes exactly R=255, G=0, B=0. -/
theorem color_line_escape_structure (pix : ℕ → ℕ → ℕ × ℕ × ℕ) (width : ℕ)
    (ramp : List Char) (brightness contrast gamma : ℝ) (y : ℕ)
    (hramp : 1 ≤ ramp.length) :
    ∃ L : List Char,
      renderLine pix width ramp true brightness contrast gamma y = some L ∧
      (∀ x, x < width → ∃ ch,
        pyStrGet ramp (glyphIndex ramp.length (toneLum brightness contrast gamma
          (pix x y).1 (pix x y).2.1 (pix x y).2.2)) = some ch ∧
        (ansi_fg (pix x y).1 (pix x y).2.1 (pix x y).2.2 ++ [ch]) <:+: L) ∧
      RESET <:+ L ∧
      occCount RESET L = 1 ∧
      ansi_fg 255 0 0 =
        [ESC, '[', '3', '8', ';', '2', ';', '2', '5', '5', ';', '0', ';', '0', 'm'] := by
  have hL : lineTot pix width ramp true brightness contrast gamma y =
      ((List.range width).map
        (cellTot ramp true brightness contrast gamma pix y)).flatten ++ RESET := by
    unfold lineTot
    simp
  refine ⟨lineTot pix width ramp true brightness contrast gamma y,
    renderLine_eq hramp pix width true brightness contrast gamma y, ?_, ?_, ?_, by decide⟩
  · intro x hx
    refine ⟨glyphTot ramp brightness contrast gamma
        (pix x y).1 (pix x y).2.1 (pix x y).2.2,
      pyStrGet_glyph hramp brightness contrast gamma _ _ _, ?_⟩
    obtain ⟨s, t, hst⟩ := flatten_map_range_split
      (cellTot ramp true brightness contrast gamma pix y) width x hx
    refine ⟨s, t ++ RESET, ?_⟩
    rw [hL, hst]
    have hcell : cellTot ramp true brightness contrast gamma pix y x =
        ansi_fg (pix x y).1 (pix x y).2.1 (pix x y).2.2 ++
          [glyphTot ramp brightness contrast gamma
            (pix x y).1 (pix x y).2.1 (pix x y).2.2] := rfl
    rw [← hcell]
    simp [List.append_assoc]
  · rw [hL]
    exact ⟨_, rfl⟩
  · rw [hL]
    apply occCount_cells
    intro cl hcl
    obtain ⟨x, _, rfl⟩ := List.mem_map.mp hcl
    exact ⟨(pix x y).1, (pix x y).2.1, (pix x y).2.2,
      glyphTot ramp brightness contrast gamma
        (pix x y).1 (pix x y).2.1 (pix x y).2.2, rfl⟩

/-- Witness for C7: one red pixel rendered with the alt ramp. -/
theorem color_line_escape_structure_witness :
    1 ≤ ALT_RAMP.length ∧
    ∃ L : List Char,
      renderLine (fun _ _ => (255, 0, 0)) 1 ALT_RAMP true 1.05 1.25 0.85 0 =
        some L ∧ RESET <:+ L ∧ occCount RESET L = 1 := by
  obtain ⟨L, h1, _, h3, h4, _⟩ := color_line_escape_structure
    (fun _ _ => (255, 0, 0)) 1 ALT_RAMP 1.05 1.25 0.85 0 (by decide)
  exact ⟨by decide, L, h1, h3, h4⟩

end Glyphify
